/-
Verification of the `infiniter` sequence-wrapper library (`src/infiniter/iter.py`)
against its natural-language specification.

The Python class `Iter` wraps a single-pass iterator together with a boolean
`_infinite` flag.  We embed a wrapper as the (possibly infinite) sequence of the
elements its producer will still yield — a `Stream'.Seq` — together with the flag.
A one-shot Python iterator is observationally exactly such a sequence: pulling
yields the head and leaves the tail.  Operations that the Python code runs as
loops draining an iterator are embedded as fuel-indexed runs returning `none`
when the loop does not finish within the given number of pulls (the Python call
would still be looping), together with the producer state they leave behind.
-/
import Mathlib

open Stream' (Seq)

/-- The wrapper type of `iter.py`: `Iter.__init__` stores `iter(iterable)` as
`self._iter` (embedded as the sequence of elements left to pull) and the
caller-supplied flag `self._infinite`, which defaults to `False`. -/
structure Iter (α : Type) : Type where
  seq : Stream'.Seq α
  infinite : Bool := false

/-- `itertools.count(start, step)`: the stream `start, start+step, start+2*step, ...`. -/
def countStream (start step : ℤ) : Stream' ℤ := fun n => start + step * n

/-- `Iter.count(start, step)` from iter.py: wraps `itertools.count(start, step)`
with `infinite=True`. -/
def Iter.count (start step : ℤ) : Iter ℤ :=
  ⟨Seq.ofStream (countStream start step), true⟩

/-- `Iter.range(n)` from iter.py: wraps the builtin `range(n)`; the `infinite`
flag is left at its default `False`.  (We model the single-argument form of
`range`, the one exercised by the spec's examples.) -/
def Iter.range (n : ℕ) : Iter ℤ :=
  ⟨Seq.ofList ((List.range n).map Int.ofNat), false⟩

/-- Python truthiness of an `int | None` value: `None` and `0` are falsy. -/
def pyTruthy : Option ℕ → Bool
  | none => false
  | some t => decide (t ≠ 0)

/-- `Iter.repeat(value, times=None)` from iter.py: the code branches on
`if times:` — Python truthiness, not an `is not None` test — wrapping
`itertools.repeat(value, times)` (yields `value` exactly `times` times, flag
left at the default `False`) in the truthy branch and `itertools.repeat(value)`
(yields `value` forever, `infinite=True`) in the falsy branch. -/
def Iter.repeat (value : α) (times : Option ℕ) : Iter α :=
  if pyTruthy times then ⟨Seq.ofList (List.replicate (times.getD 0) value), false⟩
  else ⟨Seq.ofStream (Stream'.const value), true⟩

/-- `Iter.map` from iter.py: `return Iter(map(func, self._iter))` — the new
wrapper's elements are the images under `func`, and the `infinite` flag is the
constructor default `False` (the code does not pass the parent's flag). -/
def Iter.map (w : Iter α) (func : α → β) : Iter β :=
  ⟨Seq.map func w.seq, false⟩

/-- The sequence underlying `enumerate(it, start)`: element `i` of `it` is paired
with index `start + i`. -/
def seqEnumFrom (start : ℤ) (s : Stream'.Seq α) : Stream'.Seq (ℤ × α) :=
  ⟨fun n => (s.get? n).map (fun a => (start + (n : ℤ), a)), by
    intro n h
    have h' : (s.get? n).map (fun a => (start + (n : ℤ), a)) = none := h
    have hn : s.get? n = none := by
      cases hs : s.get? n with
      | none => rfl
      | some a => rw [hs] at h'; simp at h'
    have h2 := s.le_stable (Nat.le_succ n) hn
    simp [h2]⟩

/-- `Iter.enumerate` from iter.py: `return Iter(enumerate(self._iter, start))` —
pairs each element with a running index from `start`; the `infinite` flag is the
constructor default `False`. -/
def Iter.enumerate (w : Iter α) (start : ℤ) : Iter (ℤ × α) :=
  ⟨seqEnumFrom start w.seq, false⟩

/-- `Iter.zip` from iter.py, specialised to one other wrapper (the claims only
use the binary form): `return Iter(zip(self._iter, other))` — positional pairs,
ending when either side ends; the `infinite` flag is the constructor default
`False`. -/
def Iter.zip (w : Iter α) (other : Iter β) : Iter (α × β) :=
  ⟨Seq.zip w.seq other.seq, false⟩

/-- `Iter.chain` from iter.py: the generator yields all of `self`'s elements,
then every element of each `other` in order; the wrapper around it has the
constructor-default `infinite=False`.  The operands are taken to be wrappers
(the form the claims use). -/
def Iter.chain (w : Iter α) (others : List (Iter α)) : Iter α :=
  ⟨(others.map Iter.seq).foldl Seq.append w.seq, false⟩

/-- `Iter.take` from iter.py: the generator yields `i[1]` for the enumerated
elements with index below `items` and stops at the first index `≥ items`, so its
element sequence is the first `min(items, length)` elements; the wrapper has
the constructor-default `infinite=False`. -/
def Iter.take (w : Iter α) (items : ℕ) : Iter α :=
  ⟨Seq.ofList (Seq.take items w.seq), false⟩

/-- Positions of `s` on which `filter_map`'s function produces a value. -/
def passIdx (f : α → Option β) (s : Stream'.Seq α) (i : ℕ) : Prop :=
  ((s.get? i).bind f).isSome

/-- There are more than `n` positions of `s` on which `f` produces a value
(vacuously true when there are infinitely many). -/
def passCond (f : α → Option β) (s : Stream'.Seq α) (n : ℕ) : Prop :=
  ∀ hf : {i | passIdx f s i}.Finite, n < hf.toFinset.card

/-- Value at position `n` of the yield sequence of `filter_map`'s generator:
the image under `f` of the `n`-th element of `s` on which `f` succeeds.  The
generator is a Python loop that may pull forever without yielding, so this
denotation (the subsequence of successful images) is not computable; it is
defined classically via `Nat.nth`. -/
noncomputable def seqFilterMapVal (f : α → Option β) (s : Stream'.Seq α) (n : ℕ) : Option β :=
  @ite _ (passCond f s n) (Classical.propDecidable _)
    ((s.get? (Nat.nth (passIdx f s) n)).bind f) none

theorem seqFilterMapVal_stable (f : α → Option β) (s : Stream'.Seq α) (n : ℕ)
    (h : seqFilterMapVal f s n = none) : seqFilterMapVal f s (n + 1) = none := by
  unfold seqFilterMapVal at h ⊢
  by_cases hc : passCond f s n
  · exfalso
    rw [if_pos hc] at h
    have hm : passIdx f s (Nat.nth (passIdx f s) n) := Nat.nth_mem n hc
    have hm2 : ((s.get? (Nat.nth (passIdx f s) n)).bind f).isSome = true := hm
    rw [h] at hm2
    simp at hm2
  · rw [if_neg ?_]
    intro hc'
    exact hc (fun hf => Nat.lt_of_succ_lt (hc' hf))

/-- The yield sequence of `filter_map`'s generator over upstream `s`. -/
noncomputable def seqFilterMap (f : α → Option β) (s : Stream'.Seq α) : Stream'.Seq β :=
  ⟨seqFilterMapVal f s, fun {n} h => seqFilterMapVal_stable f s n h⟩

/-- `Iter.filter_map` from iter.py: the generator yields `func(item)` for each
upstream item on which the result `is not None`; the wrapper around `gen()` has
the constructor-default `infinite=False`. -/
noncomputable def Iter.filter_map (w : Iter α) (func : α → Option β) : Iter β :=
  ⟨seqFilterMap func w.seq, false⟩

/-- `Iter.filter` from iter.py: `return Iter(filter(predicate, self._iter))` —
keeps the elements on which the predicate is true (the same subsequence
construction as `filter_map`, with the guard function); the `infinite` flag is
the constructor default `False`. -/
noncomputable def Iter.filter (w : Iter α) (predicate : α → Bool) : Iter α :=
  ⟨seqFilterMap (fun a => if predicate a then some a else none) w.seq, false⟩

/-- The `InfiniteIteratorError` message built by the `requires_finite` decorator
in iter.py: `f"Cannot call {m}() on infinite iterator\nUse .take(n).{m}() first
to limit the iterator"`. -/
def infMsg (methodName : String) : String :=
  "Cannot call " ++ methodName ++ "() on infinite iterator\nUse .take(n)." ++
    methodName ++ "() first to limit the iterator"

/-- Drain a producer to a list, with `fuel` bounding the number of pulls
(including the final pull that observes exhaustion): `none` means the drain is
still running after `fuel` pulls. -/
def seqDrain : ℕ → Stream'.Seq α → Option (List α)
  | 0, _ => none
  | fuel + 1, s =>
    match Seq.destruct s with
    | none => some []
    | some (a, s') => (seqDrain fuel s').map (a :: ·)

/-- `Iter.sum` from iter.py: the `requires_finite` decorator raises
`InfiniteIteratorError` when `self._infinite` is set, before the body runs and
before anything is pulled; otherwise the body folds the drained elements with
`+` starting from `0` (Python's `sum`), leaving the producer exhausted.  The
result pairs the outcome with the producer state left behind; `none` means the
drain is still running after `fuel` pulls. -/
def Iter.sumRun [Add α] [Zero α] (fuel : ℕ) (w : Iter α) :
    Option (Except String α × Stream'.Seq α) :=
  if w.infinite then some (.error (infMsg "sum"), w.seq)
  else (seqDrain fuel w.seq).map (fun xs => (.ok (xs.foldl (· + ·) 0), Seq.nil))

/-- `Iter.sort` from iter.py: guarded by `requires_finite` exactly like `sum`;
otherwise drains and returns a new wrapper over the sorted elements (we model
the default arguments `key=None, reverse=False`, giving an ascending sort). -/
def Iter.sortRun [LinearOrder α] (fuel : ℕ) (w : Iter α) :
    Option (Except String (Iter α) × Stream'.Seq α) :=
  if w.infinite then some (.error (infMsg "sort"), w.seq)
  else (seqDrain fuel w.seq).map
    (fun xs => (.ok ⟨Seq.ofList (xs.insertionSort (· ≤ ·)), false⟩, Seq.nil))

/-- `Iter.collect` from iter.py: guarded by `requires_finite`; otherwise
`list(self)` drains the producer into a list. -/
def Iter.collectRun (fuel : ℕ) (w : Iter α) :
    Option (Except String (List α) × Stream'.Seq α) :=
  if w.infinite then some (.error (infMsg "collect"), w.seq)
  else (seqDrain fuel w.seq).map (fun xs => (.ok xs, Seq.nil))

/-- The loop of `Iter.__len__`'s bounded branch over the drained, enumerated
elements: `total = 0`, then `total = i[0]` for each pair — the final value is
the last index, not the element count. -/
def lenFold (xs : List (ℕ × α)) : ℤ :=
  xs.foldl (fun _ p => (p.1 : ℤ)) 0

/-- `Iter.__len__` from iter.py (also `Iter.len`): returns `-1` when
`self._infinite` is set, without pulling; otherwise runs
`for i in self.enumerate(): total = i[0]` over the drained producer and returns
`total`. -/
def Iter.lenRun (fuel : ℕ) (w : Iter α) : Option (ℤ × Stream'.Seq α) :=
  if w.infinite then some (-1, w.seq)
  else (seqDrain fuel w.seq).map (fun xs => (lenFold xs.enum, Seq.nil))

/-- `str.ljust(3)`: pad on the right with spaces to width 3. -/
def ljust3 (s : String) : String :=
  s ++ String.mk (List.replicate (3 - s.length) ' ')

/-- One line of `Iter.__str__`'s output:
`str(i[0]).ljust(3) + "|  " + str(i[1]) + "\n"`. -/
def strRow (toStr : α → String) (p : ℕ × α) : String :=
  ljust3 (toString p.1) ++ "|  " ++ toStr p.2 ++ "\n"

/-- `Iter.__str__` from iter.py: appends a line per enumerated element and, on
reaching index 10 (the 11th element), appends `"..."` and breaks, so the loop
pulls at most the first 11 elements.  `toStr` stands for Python's `str` on the
element type. -/
def Iter.strRun (toStr : α → String) (w : Iter α) : String :=
  ((Seq.take 11 w.seq).enum.map (strRow toStr)).foldl (· ++ ·) "" ++
    (if (Seq.take 11 w.seq).length = 11 then "..." else "")

/-- The generator of `Iter.take`, run to exhaustion against the upstream
producer: pulls enumerated pairs (the running index is `idx`), stops yielding
at the first index `≥ items` — note that this terminating check has already
pulled (and discards) that element — and returns the yielded elements together
with the upstream producer state left behind. -/
def takeRun (items idx : ℕ) (s : Stream'.Seq α) : List α × Stream'.Seq α :=
  match Seq.destruct s with
  | none => ([], Seq.nil)
  | some (x, s') =>
    if items ≤ idx then ([], s')
    else
      let r := takeRun items (idx + 1) s'
      (x :: r.1, r.2)
termination_by items - idx
decreasing_by simp_all; omega

/-- The `for p in primes:` loop of `Iter.primes`'s generator: breaks with
"prime" when `p * p > candidate`, breaks with "not prime" when
`candidate % p == 0`, and leaves `is_prime` true when the list is exhausted. -/
def trialDiv (candidate : ℕ) : List ℕ → Bool
  | [] => true
  | p :: ps =>
    if candidate < p * p then true
    else if candidate % p = 0 then false
    else trialDiv candidate ps

/-- The `while True:` loop of `Iter.primes`'s generator, run for `fuel`
iterations from the state `(primes, candidate)`: returns the elements yielded
(each prime candidate is appended to `primes` and yielded; the candidate then
advances by 2). -/
def primesRunAux : ℕ → List ℕ → ℕ → List ℕ
  | 0, _, _ => []
  | fuel + 1, ps, c =>
    if trialDiv c ps then c :: primesRunAux fuel (ps ++ [c]) (c + 2)
    else primesRunAux fuel ps (c + 2)

/-- The elements yielded by `Iter.primes`'s generator within `fuel` loop
iterations: `2` first (yielded before the loop, with `primes = [2]` and
`candidate = 3`), then the primes discovered by trial division. -/
def primesYields (fuel : ℕ) : List ℕ :=
  2 :: primesRunAux fuel [2] 3

/-- The full yield stream of `Iter.primes`'s generator: the `n`-th yield.  A
fuel of `2 ^ n` loop iterations is always enough to produce the `n`-th yield
(`primesYields_length_lt` below), and the yield list is a prefix-stable
function of the fuel, so the choice of fuel is immaterial. -/
def primesStream : Stream' ℕ := fun n => (primesYields (2 ^ n)).getD n 0

/-- `Iter.primes` from iter.py: wraps the trial-division generator with
`infinite=True`. -/
def Iter.primes : Iter ℕ :=
  ⟨Seq.ofStream primesStream, true⟩

theorem destruct_ofStream (f : Stream' α) :
    Seq.destruct (Seq.ofStream f) = some (f 0, Seq.ofStream f.tail) := rfl

theorem destruct_ofList_cons (a : α) (xs : List α) :
    Seq.destruct (Seq.ofList (a :: xs)) = some (a, Seq.ofList xs) := by
  rw [Seq.ofList_cons, Seq.destruct_cons]

theorem take_ofList (n : ℕ) (xs : List α) : Seq.take n (Seq.ofList xs) = xs.take n := by
  induction n generalizing xs with
  | zero => simp [Seq.take]
  | succ n ih =>
    cases xs with
    | nil => simp [Seq.take, Seq.destruct_nil]
    | cons a xs => rw [Seq.take, destruct_ofList_cons]; simp [ih]

theorem take_ofStream (n : ℕ) (f : Stream' α) :
    Seq.take n (Seq.ofStream f) = (List.range n).map f := by
  induction n generalizing f with
  | zero => simp [Seq.take]
  | succ n ih =>
    rw [Seq.take, destruct_ofStream]
    show f 0 :: Seq.take n (Seq.ofStream f.tail) = _
    rw [ih, List.range_succ_eq_map]
    simp [List.map_map]
    intro a _
    rfl

theorem length_take_le (n : ℕ) (s : Stream'.Seq α) : (Seq.take n s).length ≤ n := by
  induction n generalizing s with
  | zero => simp [Seq.take]
  | succ n ih =>
    rw [Seq.take]
    cases hd : Seq.destruct s with
    | none => simp
    | some p =>
      obtain ⟨x, r⟩ := p
      simpa using Nat.succ_le_succ (ih r)

theorem length_take_succ_iff (n : ℕ) (s : Stream'.Seq α) :
    (Seq.take (n + 1) s).length = n + 1 ↔ (s.get? n).isSome := by
  induction n generalizing s with
  | zero =>
    rw [Seq.take]
    cases hd : Seq.destruct s with
    | none => rw [Seq.destruct_eq_nil hd]; simp [Seq.take]
    | some p =>
      obtain ⟨x, r⟩ := p
      rw [Seq.destruct_eq_cons hd]
      simp [Seq.take, Seq.get?_cons_zero]
  | succ n ih =>
    rw [Seq.take]
    cases hd : Seq.destruct s with
    | none => rw [Seq.destruct_eq_nil hd]; simp
    | some p =>
      obtain ⟨x, r⟩ := p
      rw [Seq.destruct_eq_cons hd]
      simp only [List.length_cons, Nat.add_left_inj, Seq.get?_cons_succ]
      exact ih r

theorem get?_append_left {s₁ s₂ : Stream'.Seq α} {n : ℕ} {a : α} (h : s₁.get? n = some a) :
    (Seq.append s₁ s₂).get? n = some a := by
  induction n generalizing s₁ with
  | zero =>
    have hd : Seq.destruct s₁ = some (a, s₁.tail) := by simp [Seq.destruct, h]
    rw [Seq.destruct_eq_cons hd, Seq.cons_append, Seq.get?_cons_zero]
  | succ n ih =>
    cases hd : Seq.destruct s₁ with
    | none =>
      rw [Seq.destruct_eq_nil hd] at h
      simp [Seq.get?_nil] at h
    | some p =>
      rw [Seq.destruct_eq_cons hd] at h ⊢
      rw [Seq.get?_cons_succ] at h
      rw [Seq.cons_append, Seq.get?_cons_succ]
      exact ih h

theorem get?_append_ofList (xs : List α) (t : Stream'.Seq α) (n : ℕ) :
    (Seq.append (Seq.ofList xs) t).get? n =
      if n < xs.length then xs[n]? else t.get? (n - xs.length) := by
  induction xs generalizing n with
  | nil => simp [Seq.nil_append]
  | cons a xs ih =>
    rw [Seq.ofList_cons, Seq.cons_append]
    cases n with
    | zero => simp [Seq.get?_cons_zero]
    | succ n => simp [Seq.get?_cons_succ, ih n, Nat.succ_lt_succ_iff]

theorem tail_drop (s : Stream'.Seq α) (n : ℕ) :
    Seq.drop (Seq.tail s) n = Seq.tail (Seq.drop s n) := by
  induction n with
  | zero => rfl
  | succ n ih => rw [Seq.drop, ih, Seq.drop]

theorem seqDrain_ofList (xs : List α) :
    seqDrain (xs.length + 1) (Seq.ofList xs) = some xs := by
  induction xs with
  | nil => rfl
  | cons a xs ih => rw [List.length_cons, seqDrain, destruct_ofList_cons]; simp [ih]

theorem foldl_enumFrom_last (xs : List α) (k : ℕ) (a : ℤ) :
    (List.enumFrom k xs).foldl (fun _ p => (p.1 : ℤ)) a =
      if xs.isEmpty then a else (k : ℤ) + xs.length - 1 := by
  induction xs generalizing k a with
  | nil => rfl
  | cons x xs ih =>
    rw [List.enumFrom, List.foldl_cons, ih (k + 1)]
    cases xs with
    | nil => simp
    | cons y ys => simp; ring

theorem lenFold_enum (xs : List α) :
    lenFold xs.enum = if xs.isEmpty then 0 else (xs.length : ℤ) - 1 := by
  rw [lenFold, List.enum_eq_enumFrom, foldl_enumFrom_last]
  cases xs <;> simp

theorem takeRun_eq (d idx : ℕ) (s : Stream'.Seq α) (h : (s.get? d).isSome) :
    takeRun (idx + d) idx s = (Seq.take d s, Seq.drop s (d + 1)) := by
  induction d generalizing idx s with
  | zero =>
    obtain ⟨x, hx⟩ := Option.isSome_iff_exists.mp h
    have hd : Seq.destruct s = some (x, s.tail) := by simp [Seq.destruct, hx]
    rw [takeRun, hd]
    simp [Seq.take, Seq.drop]
  | succ d ih =>
    have h0 : (s.get? 0).isSome := by
      cases h0 : s.get? 0 with
      | none => rw [s.le_stable (Nat.zero_le _) h0] at h; simp at h
      | some _ => rfl
    obtain ⟨x, hx⟩ := Option.isSome_iff_exists.mp h0
    have hd : Seq.destruct s = some (x, s.tail) := by simp [Seq.destruct, hx]
    have hlt : ¬ (idx + (d + 1) ≤ idx) := by omega
    rw [takeRun, hd]
    simp only [hlt, if_false]
    have harg : idx + (d + 1) = (idx + 1) + d := by omega
    have htl : (Seq.tail s).get? d = s.get? (d + 1) := Seq.get?_tail s d
    rw [harg, ih (idx + 1) s.tail (htl ▸ h)]
    have htk : Seq.take (d + 1) s = x :: Seq.take d s.tail := by
      rw [Seq.take, hd]
    rw [htk]
    rw [tail_drop]
    rfl

/-- C1: the claim says `map`, `filter`, `filter_map` and `enumerate` return a
wrapper whose `is_unbounded` flag equals the parent's.  In the code each of the
four returns `Iter(...)` without passing the flag, so the result's flag is the
constructor default `False` regardless of the parent: the flag is preserved for
bounded parents only, and dropped for unbounded parents such as `count()`,
whose own flag is `True`. -/
theorem c1_single_source_transforms_drop_unbounded_flag (w : Iter α) (f : α → β) (p : α → Bool) (g : α → Option γ) (start : ℤ) :
    (w.map f).infinite = false ∧ (w.filter p).infinite = false ∧
      (w.filter_map g).infinite = false ∧ (w.enumerate start).infinite = false ∧
      (Iter.count 0 1).infinite = true :=
  ⟨rfl, rfl, rfl, rfl, rfl⟩

/-- C5: `repeat(v, t)` with an explicit `t ≥ 1` is the bounded `t`-fold
repetition and `repeat(v)` is unbounded, as claimed; but for the explicitly
given `times = 0` the code's truthiness test `if times:` takes the falsy
branch, returning the unbounded wrapper that yields `v` forever instead of the
claimed bounded empty wrapper. -/
theorem c5_repeat_times_zero_bug (v : α) (t k : ℕ) :
    Iter.repeat v (some (t + 1)) = ⟨Seq.ofList (List.replicate (t + 1) v), false⟩ ∧
    Iter.repeat v none = ⟨Seq.ofStream (Stream'.const v), true⟩ ∧
    (Iter.repeat v (some 0)).infinite = true ∧
    (Iter.repeat v (some 0)).seq.get? k = some v := by
  refine ⟨?_, rfl, rfl, rfl⟩
  rw [Iter.repeat]
  simp [pyTruthy]

/-- C2: `zip` pairs elements positionally and stops at the shorter operand
(its sequence at `n` is the pair of the operands' elements at `n`, `none` as
soon as either side is exhausted), and `count().zip(range(5))` is bounded with
elements `(n, n)` for `n < 5`; but the resulting wrapper's flag is the
constructor default `False` for all operands, so `count().zip(count())` also
carries `is_unbounded = false`, contradicting the claimed "unbounded iff all
operands unbounded". -/
theorem c2_zip_pairs_but_drops_unbounded_flag (a : Iter α) (b : Iter β) (n : ℕ) :
    (a.zip b).seq.get? n = Option.map₂ Prod.mk (a.seq.get? n) (b.seq.get? n) ∧
    (a.zip b).infinite = false ∧
    (Iter.count 0 1).infinite = true ∧
    ((Iter.count 0 1).zip (Iter.count 0 1)).infinite = false ∧
    ((Iter.count 0 1).zip (Iter.range 5)).infinite = false ∧
    ((Iter.count 0 1).zip (Iter.range 5)).seq.get? n =
      (if n < 5 then some ((n : ℤ), (n : ℤ)) else none) := by
  refine ⟨Seq.get?_zip _ _ _, rfl, rfl, rfl, rfl, ?_⟩
  rw [Iter.zip, Seq.get?_zip]
  show Option.map₂ Prod.mk ((Seq.ofStream (countStream 0 1)).get? n)
      ((Seq.ofList ((List.range 5).map Int.ofNat)).get? n) = _
  have h1 : (Seq.ofStream (countStream 0 1)).get? n = some ((n : ℤ)) := by
    show some (countStream 0 1 n) = _
    simp [countStream]
  rw [h1, Seq.ofList_get]
  by_cases h : n < 5
  · rw [if_pos h]
    simp [List.get?_eq_getElem?, h]
  · rw [if_neg h]
    simp [List.get?_eq_getElem?, List.getElem?_eq_none_iff]
    omega

/-- C4: on an unbounded wrapper `__len__` returns the sentinel `-1` without
pulling (the producer state is returned unchanged, for any fuel); on a bounded
wrapper it drains and returns the value of the loop `total = i[0]`, which is
the last enumerate index — `if xs = [] then 0 else xs.length - 1` — not the
element count: for `[10, 20, 30]` (three elements) it returns `2`. -/
theorem c4_len_sentinel_and_last_index_bug (s : Stream'.Seq α) (fuel : ℕ) (xs : List α) :
    Iter.lenRun fuel ⟨s, true⟩ = some (-1, s) ∧
    Iter.lenRun (xs.length + 1) ⟨Seq.ofList xs, false⟩ =
      some ((if xs.isEmpty then 0 else (xs.length : ℤ) - 1), Seq.nil) ∧
    Iter.lenRun 4 ⟨Seq.ofList [10, 20, 30], false⟩ = some (2, Seq.nil) ∧
    ([10, 20, 30] : List ℕ).length = 3 := by
  refine ⟨rfl, ?_, ?_, rfl⟩
  · rw [Iter.lenRun]
    simp only [Bool.false_eq_true, if_false]
    rw [seqDrain_ofList]
    simp [lenFold_enum]
  · rw [Iter.lenRun]
    simp only [Bool.false_eq_true, if_false]
    have h3 : seqDrain 4 (Seq.ofList [10, 20, 30]) = some [10, 20, 30] :=
      seqDrain_ofList [10, 20, 30]
    rw [h3]
    simp [lenFold_enum]

/-- C6: `sum`, `sort` and `collect` on a wrapper whose flag is set return the
`InfiniteIteratorError` immediately: for every fuel the result is the error and
the producer state is returned untouched (no element is pulled), and each
message names the called operation and suggests `.take(n)` first. -/
theorem c6_finite_only_guard_raises_before_pulling [Add α] [Zero α] [LinearOrder α] (s : Stream'.Seq α) (fuel : ℕ) :
    Iter.sumRun fuel ⟨s, true⟩ = some (.error (infMsg "sum"), s) ∧
    Iter.sortRun fuel ⟨s, true⟩ = some (.error (infMsg "sort"), s) ∧
    Iter.collectRun fuel ⟨s, true⟩ = some (.error (infMsg "collect"), s) ∧
    infMsg "sum" =
      "Cannot call sum() on infinite iterator\nUse .take(n).sum() first to limit the iterator" ∧
    infMsg "sort" =
      "Cannot call sort() on infinite iterator\nUse .take(n).sort() first to limit the iterator" ∧
    infMsg "collect" =
      "Cannot call collect() on infinite iterator\nUse .take(n).collect() first to limit the iterator" ∧
    (∃ pre post, infMsg "sum" = pre ++ ("sum" ++ "()") ++ post) ∧
    (∃ pre post, infMsg "sum" = pre ++ ".take(n)" ++ post) ∧
    (∃ pre post, infMsg "sort" = pre ++ ("sort" ++ "()") ++ post) ∧
    (∃ pre post, infMsg "sort" = pre ++ ".take(n)" ++ post) ∧
    (∃ pre post, infMsg "collect" = pre ++ ("collect" ++ "()") ++ post) ∧
    (∃ pre post, infMsg "collect" = pre ++ ".take(n)" ++ post) := by
  refine ⟨rfl, rfl, rfl, rfl, rfl, rfl,
    ⟨"Cannot call ", " on infinite iterator\nUse .take(n).sum() first to limit the iterator",
      by decide⟩,
    ⟨"Cannot call sum() on infinite iterator\nUse ",
      ".sum() first to limit the iterator", by decide⟩,
    ⟨"Cannot call ", " on infinite iterator\nUse .take(n).sort() first to limit the iterator",
      by decide⟩,
    ⟨"Cannot call sort() on infinite iterator\nUse ",
      ".sort() first to limit the iterator", by decide⟩,
    ⟨"Cannot call ",
      " on infinite iterator\nUse .take(n).collect() first to limit the iterator", by decide⟩,
    ⟨"Cannot call collect() on infinite iterator\nUse ",
      ".collect() first to limit the iterator", by decide⟩⟩

/-- C7: `take(n)` always clears the flag, its elements are exactly the first
`min(n, length)` elements of the source (position `i` holds the source's
element `i` for `i < n` and nothing otherwise), and over an unbounded
stream-backed source the result is exactly the list of the first `n` pulls,
of length exactly `n`. -/
theorem c7_take_bounded_prefix (w : Iter α) (n i : ℕ) (f : Stream' α) :
    (w.take n).infinite = false ∧
    (w.take n).seq.get? i = (if i < n then w.seq.get? i else none) ∧
    ((Iter.mk (Seq.ofStream f) true).take n).seq = Seq.ofList ((List.range n).map f) ∧
    ((List.range n).map f).length = n := by
  refine ⟨rfl, ?_, ?_, by simp⟩
  · show (Seq.ofList (Seq.take n w.seq)).get? i = _
    rw [Seq.ofList_get, List.get?_eq_getElem?, Seq.getElem?_take]
  · show Seq.ofList (Seq.take n (Seq.ofStream f)) = _
    rw [take_ofStream]

/-- C10: draining `take(n)` over a producer that still holds an element at
index `n` consumes `n + 1` elements from the shared producer: the yields are
the first `n` elements, the producer is left at position `n + 1` (the
terminating check pulled and discarded element `n`), and the next pull yields
the element at index `n + 1`. -/
theorem c10_take_drain_advances_n_plus_one (s : Stream'.Seq α) (n : ℕ) (h : (s.get? n).isSome) :
    takeRun n 0 s = (Seq.take n s, Seq.drop s (n + 1)) ∧
    (Seq.drop s (n + 1)).head = s.get? (n + 1) := by
  refine ⟨?_, Seq.head_dropn s (n + 1)⟩
  have h2 := takeRun_eq n 0 s h
  rwa [Nat.zero_add] at h2

/-- Witness for C10 at a concrete input. -/
theorem c10_take_drain_advances_n_plus_one_witness :
    ((Seq.ofList [10, 20, 30, 40] : Stream'.Seq ℕ).get? 2).isSome ∧
      (takeRun 2 0 (Seq.ofList [10, 20, 30, 40]) =
        (Seq.take 2 (Seq.ofList [10, 20, 30, 40]),
          Seq.drop (Seq.ofList [10, 20, 30, 40]) 3) ∧
        (Seq.drop (Seq.ofList ([10, 20, 30, 40] : List ℕ)) 3).head =
          (Seq.ofList ([10, 20, 30, 40] : List ℕ)).get? 3) :=
  ⟨by decide, c10_take_drain_advances_n_plus_one (Seq.ofList [10, 20, 30, 40]) 2 (by decide)⟩

/-- C8 counterexample: the claim says the ellipsis appears iff more elements
remain beyond the 11 shown.  On a source of exactly 11 elements nothing
remains beyond the shown pairs (position 11 is empty), yet the rendering ends
with the `"..."` marker, because the code appends it upon reaching index 10
regardless of whether anything follows. -/
theorem c8_preview_ellipsis_at_eleven_counterexample :
    Iter.strRun toString (⟨Seq.ofList (List.range 11), false⟩ : Iter ℕ) =
      "0  |  0\n1  |  1\n2  |  2\n3  |  3\n4  |  4\n5  |  5\n6  |  6\n7  |  7\n8  |  8\n9  |  9\n10 |  10\n..." ∧
    (Seq.ofList (List.range 11) : Stream'.Seq ℕ).get? 11 = none := by
  constructor
  · decide
  · decide

/-- C8 amended: the preview renders one line per pair of `(take 11).enum` —
exactly the pairs `(i, element i)` for `i` below `min 11 (length)` — pulls at
most the first 11 elements (the output only depends on them, and the rendered
pair list has length at most 11), terminates on every input by construction,
and carries the ellipsis marker iff the source has an 11th element (index 10),
not iff elements remain beyond the 11 shown. -/
theorem c8_preview_self_limiting_amended (toStr : α → String) (s : Stream'.Seq α)
    (b : Bool) (i : ℕ) :
    Iter.strRun toStr ⟨s, b⟩ =
      ((Seq.take 11 s).enum.map (strRow toStr)).foldl (· ++ ·) "" ++
        (if (s.get? 10).isSome then "..." else "") ∧
    (Seq.take 11 s).length ≤ 11 ∧
    ((Seq.take 11 s).enum)[i]? = (if i < 11 then (s.get? i).map (Prod.mk i) else none) ∧
    Iter.strRun toStr ⟨s, b⟩ = Iter.strRun toStr ⟨Seq.ofList (Seq.take 11 s), b⟩ := by
  refine ⟨?_, length_take_le 11 s, ?_, ?_⟩
  · simp only [Iter.strRun]
    congr 1
    exact if_congr (length_take_succ_iff 10 s) rfl rfl
  · rw [List.getElem?_enum, Seq.getElem?_take]
    by_cases h : i < 11 <;> simp [h]
  · have he : Seq.take 11 (Seq.ofList (Seq.take 11 s)) = Seq.take 11 s := by
      rw [take_ofList]
      exact List.take_of_length_le (length_take_le 11 s)
    simp only [Iter.strRun, he]

/-- C3: `chain` yields all of `self`'s elements in order (any element of `a`
is at its own position in the result) followed by the chained operand's
elements (for a drained list prefix, position `length + j` holds `b`'s element
`j`), and `range(3).chain(count()).take(5).collect()` is `[0, 1, 2, 0, 1]`;
but the resulting wrapper's flag is the constructor default `False` even when
an operand (here `count()`, flag `True`) is unbounded, contradicting the
claimed "unbounded iff self or any operand is". -/
theorem c3_chain_order_but_drops_unbounded_flag (a b : Iter ℤ) (xs : List ℤ)
    (ba : Bool) (n : ℕ) (x : ℤ) (h : a.seq.get? n = some x) :
    (a.chain [b]).seq.get? n = some x ∧
    (Iter.chain ⟨Seq.ofList xs, ba⟩ [b]).seq.get? n =
      (if n < xs.length then xs[n]? else b.seq.get? (n - xs.length)) ∧
    (a.chain [b]).infinite = false ∧
    (Iter.count 0 1).infinite = true ∧
    Iter.collectRun 6 (((Iter.range 3).chain [Iter.count 0 1]).take 5) =
      some (.ok ([0, 1, 2, 0, 1] : List ℤ), Seq.nil) := by
  refine ⟨?_, ?_, rfl, rfl, by rfl⟩
  · show (Seq.append a.seq b.seq).get? n = some x
    exact get?_append_left h
  · show (Seq.append (Seq.ofList xs) b.seq).get? n = _
    exact get?_append_ofList xs b.seq n

/-- Witness for C3 at concrete inputs. -/
theorem c3_chain_order_but_drops_unbounded_flag_witness :
    (Iter.range 3).seq.get? 0 = some 0 ∧
      (((Iter.range 3).chain [Iter.count 0 1]).seq.get? 0 = some 0 ∧
        (Iter.chain ⟨Seq.ofList [5, 7], false⟩ [Iter.count 0 1]).seq.get? 0 =
          (if 0 < ([5, 7] : List ℤ).length then ([5, 7] : List ℤ)[0]?
            else (Iter.count 0 1).seq.get? (0 - ([5, 7] : List ℤ).length)) ∧
        ((Iter.range 3).chain [Iter.count 0 1]).infinite = false ∧
        (Iter.count 0 1).infinite = true ∧
        Iter.collectRun 6 (((Iter.range 3).chain [Iter.count 0 1]).take 5) =
          some (.ok ([0, 1, 2, 0, 1] : List ℤ), Seq.nil)) :=
  ⟨by decide,
    c3_chain_order_but_drops_unbounded_flag (Iter.range 3) (Iter.count 0 1) [5, 7]
      false 0 0 (by decide)⟩

/-- Loop invariant of the `primes` generator at the head of `while True:`:
the candidate is odd and at least 3, and the `primes` list holds exactly the
primes below the candidate, in strictly increasing order. -/
def PrimesInv (ps : List ℕ) (c : ℕ) : Prop :=
  Odd c ∧ 3 ≤ c ∧ List.Pairwise (· < ·) ps ∧ ∀ p, p ∈ ps ↔ p.Prime ∧ p < c

theorem trialDiv_true_of_prime {c : ℕ} (hc : c.Prime) :
    ∀ ps : List ℕ, (∀ p ∈ ps, p.Prime ∧ p < c) → trialDiv c ps = true := by
  intro ps
  induction ps with
  | nil => intro _; rfl
  | cons p ps ih =>
    intro hmem
    obtain ⟨hp, hpc⟩ := hmem p (List.mem_cons_self p ps)
    rw [trialDiv]
    by_cases hsq : c < p * p
    · rw [if_pos hsq]
    · rw [if_neg hsq, if_neg ?_, ih (fun q hq => hmem q (List.mem_cons_of_mem p hq))]
      intro hmod
      have hdvd : p ∣ c := Nat.dvd_of_mod_eq_zero hmod
      rcases hc.eq_one_or_self_of_dvd p hdvd with h1 | h1
      · exact hp.ne_one h1
      · omega

theorem trialDiv_false_aux {c m : ℕ} (hdvd : m ∣ c) (hsq : m * m ≤ c)
    (hmin : ∀ q, q.Prime → q ∣ c → m ≤ q) :
    ∀ ps : List ℕ, List.Pairwise (· < ·) ps → m ∈ ps → (∀ q ∈ ps, q.Prime) →
      trialDiv c ps = false := by
  intro ps
  induction ps with
  | nil => intro _ hmem _; simp at hmem
  | cons p ps ih =>
    intro hpair hmem hprime
    rcases List.mem_cons.mp hmem with rfl | hmem'
    · rw [trialDiv, if_neg (by omega), if_pos (Nat.mod_eq_zero_of_dvd hdvd)]
    · have hplt : p < m := (List.pairwise_cons.mp hpair).1 m hmem'
      have hpsq : p * p < m * m := Nat.mul_lt_mul'' hplt hplt
      rw [trialDiv, if_neg (by omega), if_neg ?_]
      · exact ih (List.pairwise_cons.mp hpair).2 hmem'
          (fun q hq => hprime q (List.mem_cons_of_mem p hq))
      · intro hmod
        have hle : m ≤ p := hmin p (hprime p (List.mem_cons_self p ps))
          (Nat.dvd_of_mod_eq_zero hmod)
        omega

theorem trialDiv_iff_prime {ps : List ℕ} {c : ℕ} (hinv : PrimesInv ps c) :
    trialDiv c ps = true ↔ c.Prime := by
  obtain ⟨hodd, h3, hpair, hmem⟩ := hinv
  constructor
  · intro ht
    by_contra hnp
    have hne1 : c ≠ 1 := by omega
    have hmf : c.minFac.Prime := Nat.minFac_prime hne1
    have hmfdvd := Nat.minFac_dvd c
    have hmflt : c.minFac < c := by
      rcases Nat.lt_or_ge c.minFac c with h | h
      · exact h
      · have hle := Nat.minFac_le (n := c) (by omega)
        have hceq : c.minFac = c := le_antisymm hle h
        exact absurd (hceq ▸ hmf) hnp
    have hmsq : c.minFac * c.minFac ≤ c := by
      have := Nat.minFac_sq_le_self (n := c) (by omega) hnp
      simpa [pow_two] using this
    have hf := trialDiv_false_aux hmfdvd hmsq
      (fun q hq hqd => Nat.minFac_le_of_dvd hq.two_le hqd)
      ps hpair ((hmem _).mpr ⟨hmf, hmflt⟩) (fun q hq => ((hmem q).mp hq).1)
    rw [ht] at hf
    simp at hf
  · intro hc
    exact trialDiv_true_of_prime hc ps (fun p hp => (hmem p).mp hp)

theorem primesInv_init : PrimesInv [2] 3 := by
  refine ⟨⟨1, by omega⟩, le_refl 3, List.pairwise_singleton _ _, ?_⟩
  intro p
  rw [List.mem_singleton]
  constructor
  · rintro rfl
    exact ⟨Nat.prime_two, by omega⟩
  · rintro ⟨hp, hlt⟩
    have := hp.two_le
    omega

theorem not_prime_even_of_ge_four {k : ℕ} (h4 : 4 ≤ k) (he : Even k) : ¬k.Prime := by
  intro hp
  have := hp.even_iff.mp he
  omega

theorem primesInv_step {ps : List ℕ} {c : ℕ} (hinv : PrimesInv ps c) :
    PrimesInv (if trialDiv c ps then ps ++ [c] else ps) (c + 2) := by
  obtain ⟨hodd, h3, hpair, hmem⟩ := hinv
  have hsucc : ¬(c + 1).Prime := by
    apply not_prime_even_of_ge_four (by omega)
    obtain ⟨k, hk⟩ := hodd
    exact ⟨k + 1, by omega⟩
  have hodd' : Odd (c + 2) := by
    obtain ⟨k, hk⟩ := hodd
    exact ⟨k + 1, by omega⟩
  by_cases ht : trialDiv c ps = true
  · have hc : c.Prime := (trialDiv_iff_prime ⟨hodd, h3, hpair, hmem⟩).mp ht
    rw [if_pos ht]
    refine ⟨hodd', by omega, ?_, ?_⟩
    · rw [List.pairwise_append]
      refine ⟨hpair, List.pairwise_singleton _ _, fun a ha b hb => ?_⟩
      rw [List.mem_singleton] at hb
      subst hb
      exact ((hmem a).mp ha).2
    · intro p
      rw [List.mem_append, List.mem_singleton, hmem]
      constructor
      · rintro (⟨hp, hlt⟩ | rfl)
        · exact ⟨hp, by omega⟩
        · exact ⟨hc, by omega⟩
      · rintro ⟨hp, hlt⟩
        rcases Nat.lt_or_ge p c with h | h
        · exact Or.inl ⟨hp, h⟩
        · have hne : p ≠ c + 1 := fun hq => hsucc (hq ▸ hp)
          right
          omega
  · have hc : ¬c.Prime := fun hcp => ht ((trialDiv_iff_prime ⟨hodd, h3, hpair, hmem⟩).mpr hcp)
    rw [if_neg ht]
    refine ⟨hodd', by omega, hpair, ?_⟩
    intro p
    rw [hmem]
    constructor
    · rintro ⟨hp, hlt⟩
      exact ⟨hp, by omega⟩
    · rintro ⟨hp, hlt⟩
      have hne1 : p ≠ c + 1 := fun hq => hsucc (hq ▸ hp)
      have hne0 : p ≠ c := fun hq => hc (hq ▸ hp)
      exact ⟨hp, by omega⟩

theorem primesRunAux_eq (fuel : ℕ) :
    ∀ ps c, PrimesInv ps c →
      primesRunAux fuel ps c = (List.range' c fuel 2).filter (fun k => decide k.Prime) := by
  induction fuel with
  | zero => intro ps c _; rfl
  | succ fuel ih =>
    intro ps c hinv
    rw [primesRunAux, List.range'_succ, List.filter_cons]
    have hstep := primesInv_step hinv
    by_cases ht : trialDiv c ps = true
    · have hc : c.Prime := (trialDiv_iff_prime hinv).mp ht
      rw [if_pos ht]
      rw [if_pos ht] at hstep
      rw [ih _ _ hstep]
      simp [hc]
    · have hc : ¬c.Prime := fun hcp => ht ((trialDiv_iff_prime hinv).mpr hcp)
      rw [if_neg ht]
      rw [if_neg ht] at hstep
      rw [ih _ _ hstep]
      simp [hc]

theorem cons_two_filter_range' (fuel : ℕ) :
    2 :: (List.range' 3 fuel 2).filter (fun k => decide k.Prime) =
      (List.range (3 + 2 * fuel)).filter (fun k => decide k.Prime) := by
  induction fuel with
  | zero => decide
  | succ fuel ih =>
    have h1 : 3 + 2 * (fuel + 1) = (3 + 2 * fuel) + 1 + 1 := by ring
    have heven : ¬(3 + 2 * fuel + 1).Prime :=
      not_prime_even_of_ge_four (by omega) ⟨2 + fuel, by ring⟩
    rw [h1, List.range_succ, List.range_succ, List.filter_append, List.filter_append,
      List.range'_concat, List.filter_append, ← List.cons_append, ih]
    simp [heven]

theorem primesYields_eq (fuel : ℕ) :
    primesYields fuel = (List.range (3 + 2 * fuel)).filter (fun k => decide k.Prime) := by
  rw [primesYields, primesRunAux_eq fuel [2] 3 primesInv_init, cons_two_filter_range']

theorem filter_range_getElem? (p : ℕ → Prop) [DecidablePred p] (m n : ℕ) :
    ((List.range m).filter (fun k => decide (p k)))[n]? =
      if n < Nat.count p m then some (Nat.nth p n) else none := by
  induction m with
  | zero => simp
  | succ m ih =>
    have hlen : ((List.range m).filter (fun k => decide (p k))).length = Nat.count p m := by
      rw [Nat.count, List.countP_eq_length_filter]
    rw [List.range_succ, List.filter_append, Nat.count_succ, List.getElem?_append]
    by_cases hpm : p m
    · have hfm : List.filter (fun k => decide (p k)) [m] = [m] := by simp [hpm]
      rw [hfm, if_pos hpm]
      rcases Nat.lt_trichotomy n (Nat.count p m) with hlt | heq | hgt
      · rw [if_pos (by omega), ih, if_pos hlt, if_pos (by omega)]
      · subst heq
        rw [if_neg (by omega), hlen, Nat.sub_self]
        rw [if_pos (by omega)]
        simp [Nat.nth_count hpm]
      · rw [if_neg (by omega), hlen]
        rw [List.getElem?_eq_none (by simp; omega), if_neg (by omega)]
    · have hfm : List.filter (fun k => decide (p k)) [m] = [] := by simp [hpm]
      rw [hfm, if_neg hpm]
      rcases Nat.lt_or_ge n (Nat.count p m) with hlt | hge
      · rw [if_pos (by omega), ih, if_pos hlt, if_pos (by omega)]
      · rw [if_neg (by omega)]
        simp only [List.getElem?_nil]
        rw [if_neg (by omega)]

theorem nth_prime_zero : Nat.nth Nat.Prime 0 = 2 := by
  have h := Nat.nth_count (p := Nat.Prime) (n := 2) Nat.prime_two
  have hc : Nat.count Nat.Prime 2 = 0 := by decide
  rw [hc] at h
  exact h

theorem nth_prime_le (n : ℕ) : Nat.nth Nat.Prime n ≤ 2 ^ (n + 1) := by
  induction n with
  | zero => rw [nth_prime_zero]; norm_num
  | succ n ih =>
    have hNp : (Nat.nth Nat.Prime n).Prime :=
      Nat.nth_mem_of_infinite Nat.infinite_setOf_prime n
    obtain ⟨q, hq, hNq, hq2⟩ :=
      Nat.exists_prime_lt_and_le_two_mul (Nat.nth Nat.Prime n)
        (by have := hNp.two_le; omega)
    have hqe : Nat.nth Nat.Prime (Nat.count Nat.Prime q) = q := Nat.nth_count hq
    have hcount : n + 1 ≤ Nat.count Nat.Prime q := by
      have h1 : Nat.count Nat.Prime (Nat.nth Nat.Prime n + 1) = n + 1 := by
        rw [Nat.count_succ, Nat.count_nth_of_infinite Nat.infinite_setOf_prime,
          if_pos hNp]
      have h2 : Nat.count Nat.Prime (Nat.nth Nat.Prime n + 1) ≤ Nat.count Nat.Prime q :=
        Nat.count_monotone _ (by omega)
      omega
    have hmono : Nat.nth Nat.Prime (n + 1) ≤ Nat.nth Nat.Prime (Nat.count Nat.Prime q) :=
      (Nat.nth_le_nth Nat.infinite_setOf_prime).mpr hcount
    have hpow : 2 ^ (n + 1 + 1) = 2 * 2 ^ (n + 1) := by ring
    omega

theorem count_prime_big (n : ℕ) : n < Nat.count Nat.Prime (3 + 2 * 2 ^ n) := by
  have h1 : Nat.count Nat.Prime (Nat.nth Nat.Prime n + 1) = n + 1 := by
    rw [Nat.count_succ, Nat.count_nth_of_infinite Nat.infinite_setOf_prime,
      if_pos (Nat.nth_mem_of_infinite Nat.infinite_setOf_prime n)]
  have h2 : Nat.nth Nat.Prime n + 1 ≤ 3 + 2 * 2 ^ n := by
    have h3 := nth_prime_le n
    have hpow : 2 ^ (n + 1) = 2 * 2 ^ n := by ring
    omega
  have h4 := Nat.count_monotone Nat.Prime h2
  omega

theorem primesStream_eq_nth (n : ℕ) : primesStream n = Nat.nth Nat.Prime n := by
  show (primesYields (2 ^ n)).getD n 0 = _
  rw [primesYields_eq, List.getD_eq_getElem?_getD, filter_range_getElem? Nat.Prime,
    if_pos (count_prime_big n)]
  rfl

/-- C9: the stream of yields of `primes()` is exactly the increasing
enumeration of the prime numbers (`Nat.nth Nat.Prime`): every yield is prime,
consecutive yields strictly increase, the first yield is 2, every prime is
eventually yielded, the wrapper is flagged unbounded, and
`primes().take(6).collect()` is `[2, 3, 5, 7, 11, 13]`. -/
theorem c9_primes_enumerate_the_primes (n : ℕ) :
    primesStream n = Nat.nth Nat.Prime n ∧
    (primesStream n).Prime ∧
    primesStream n < primesStream (n + 1) ∧
    primesStream 0 = 2 ∧
    (∀ p : ℕ, p.Prime → ∃ k, primesStream k = p) ∧
    Iter.primes.infinite = true ∧
    Iter.collectRun 7 (Iter.primes.take 6) = some (.ok [2, 3, 5, 7, 11, 13], Seq.nil) := by
  refine ⟨primesStream_eq_nth n, ?_, ?_, ?_, ?_, rfl, by rfl⟩
  · rw [primesStream_eq_nth]
    exact Nat.nth_mem_of_infinite Nat.infinite_setOf_prime n
  · rw [primesStream_eq_nth, primesStream_eq_nth]
    exact (Nat.nth_lt_nth Nat.infinite_setOf_prime).mpr (by omega)
  · rw [primesStream_eq_nth]
    exact nth_prime_zero
  · intro p hp
    exact ⟨Nat.count Nat.Prime p, by rw [primesStream_eq_nth]; exact Nat.nth_count hp⟩
